import Mathlib

/-!
Verification development for the in-memory component search engine of the
`streamlit-showcase` repository (`src/utils/search.py`).

The engine is embedded shallowly: Python strings become `List Char`
(`Str`), Python dicts become association lists whose iteration order is
the dict's insertion order (CPython guarantees insertion order for
dicts), Python lists become Lean lists, and every operation of
`SearchEngine` that the claims touch is translated function-by-function
from the source.  The default catalog embedded in
`SearchEngine._create_default_components` is reproduced verbatim.

Two places where the source leaves order unspecified are modelled
deterministically and documented at the definition:
`list(set(tokens))` in `_tokenize` and `list(matched_fields[comp_id])`
in `search` enumerate a Python `set`; the model keeps first-occurrence
order.  No theorem below depends on that enumeration order.
-/

/-- Python strings are modelled as lists of unicode characters. -/
abbrev Str := List Char

/-- Coerce a Lean string literal to the `Str` model. -/
def str (s : String) : Str := s.data

/-- `str.lower()` restricted to the character repertoire of this
repository: ASCII letters are lowered, every other character (digits,
underscore, punctuation, hiragana, katakana, CJK ideographs) is left
unchanged, exactly as Python's `str.lower` leaves them unchanged. -/
def lowerPy (c : Char) : Char :=
  if 65 ≤ c.toNat ∧ c.toNat ≤ 90 then Char.ofNat (c.toNat + 32) else c

/-- The character class of Python's `\w` (with `re.UNICODE`, the default
on `str`), restricted to the character repertoire occurring in this
repository's catalog strings and queries: ASCII alphanumerics and
underscore, hiragana (U+3041..U+3096), katakana letters
(U+30A1..U+30FA), the prolonged sound mark `ー` (U+30FC, category Lm,
which `\w` matches), and CJK unified ideographs.  The characters of the
repository outside these ranges (`.`, space, `、`, `（`, `）`) are all
non-word characters in Python as well. -/
def isWordCharPy (c : Char) : Bool :=
  let v := c.toNat
  (48 ≤ v ∧ v ≤ 57) || (65 ≤ v ∧ v ≤ 90) || (97 ≤ v ∧ v ≤ 122) || v = 95 ||
  (0x3041 ≤ v ∧ v ≤ 0x3096) || (0x30A1 ≤ v ∧ v ≤ 0x30FA) || v = 0x30FC ||
  (0x4E00 ≤ v ∧ v ≤ 0x9FFF)

/-- The character class `[ぁ-んァ-ン一-龥]` of `_tokenize`'s Japanese
pass, translated exactly: hiragana U+3041..U+3093, katakana
U+30A1..U+30F3, CJK ideographs U+4E00..U+9FA5.  Note that `ー` (U+30FC)
is outside this class, so katakana runs split at the prolonged sound
mark, exactly as in the source. -/
def isJpChar (c : Char) : Bool :=
  let v := c.toNat
  (0x3041 ≤ v ∧ v ≤ 0x3093) || (0x30A1 ≤ v ∧ v ≤ 0x30F3) ||
  (0x4E00 ≤ v ∧ v ≤ 0x9FA5)

/-- The scanning loop behind `runsBy`: `acc` holds the characters of
the run currently being read, most recent first; a finished run is
emitted in reading order when a non-matching character (or the end of
the text) is reached. -/
def runsAcc (p : Char → Bool) : List Char → List Char → List (List Char)
  | [], acc => if acc.isEmpty then [] else [acc.reverse]
  | c :: cs, acc =>
    if p c then runsAcc p cs (c :: acc)
    else if acc.isEmpty then runsAcc p cs []
    else acc.reverse :: runsAcc p cs []

/-- `re.findall(r'C+', text)` for a character class `C`: the maximal
nonempty runs of characters satisfying `p`, in order. -/
def runsBy (p : Char → Bool) (l : List Char) : List (List Char) :=
  runsAcc p l []

/-- `[word[i:i+2] for i in range(len(word) - 1)]`: every contiguous
two-character substring of a run, in order. -/
def bigrams : List Char → List (List Char)
  | a :: b :: rest => [a, b] :: bigrams (b :: rest)
  | _ => []

/-- `list(set(tokens))`: duplicates removed.  Python's `set` enumeration
order is unspecified; the model keeps the first occurrence of each
token, in order.  No theorem below depends on this order. -/
def pyDedup (l : List Str) : List Str :=
  l.foldl (fun acc t => if acc.contains t then acc else acc ++ [t]) []

/-- `SearchEngine._tokenize`: lower-case the text, extract the `\w+`
word runs, then for every run of the Japanese character class append all
of its 2-character substrings, and de-duplicate. -/
def tokenize (text : Str) : List Str :=
  if text.isEmpty then []
  else
    let t := text.map lowerPy
    let tokens := runsBy isWordCharPy t
    let jp := runsBy isJpChar t
    pyDedup (tokens ++ (jp.map bigrams).flatten)

/-- One catalog record, with the fields named by the construction
interface of §6 of the spec (`id`, `name`, `category`, `description`
required strings; `tags`, `keywords` collections; `related` optional,
matching the source's `'related' in component` membership test). -/
structure Component where
  id : Str
  name : Str
  category : Str
  description : Str
  tags : List Str
  keywords : List Str
  related : Option (List Str) := none
deriving DecidableEq

/-- Lookup in an association list modelling a Python dict
(`d[k]` / `k in d`). -/
def alookup (k : Str) : List (Str × β) → Option β
  | [] => none
  | (k', v) :: rest => if k' = k then some v else alookup k rest

/-- Python dict assignment `d[k] = v`: if the key is present its value
is replaced in place (the key keeps its position), otherwise the pair is
appended at the end, matching CPython's insertion-order semantics. -/
def dinsert (m : List (Str × β)) (k : Str) (v : β) : List (Str × β) :=
  match m with
  | [] => [(k, v)]
  | (k', v') :: rest =>
    if k' = k then (k, v) :: rest else (k', v') :: dinsert rest k v

/-- The inverted index: token → (component id → list of field-name
entries, one entry per `.append(field)` in the source, so a field name
may occur with multiplicity). -/
abbrev InvIndex := List (Str × List (Str × List Str))

/-- The body shared by both loops of `_add_to_inverted_index`:
create the token's dict and the id's list if missing, then append the
field name. -/
def addEntry (inv : InvIndex) (token compId field : Str) : InvIndex :=
  let m := (alookup token inv).getD []
  let fields := (alookup compId m).getD []
  dinsert inv token (dinsert m compId (fields ++ [field]))

/-- The `searchable_fields = ['id', 'name', 'description', 'category']`
loop data: each field name paired with the record's text (`str(...)` is
the identity on strings; all four fields are present per §6). -/
def searchableFields (c : Component) : List (Str × Str) :=
  [(str "id", c.id), (str "name", c.name),
   (str "description", c.description), (str "category", c.category)]

/-- `SearchEngine._add_to_inverted_index`: tokenize each searchable
field and record `(token, comp_id, field)`; then tokenize every keyword
string and record `(token, comp_id, 'keywords')`. -/
def addToInvertedIndex (inv : InvIndex) (c : Component) : InvIndex :=
  let inv := (searchableFields c).foldl
    (fun inv ft => (tokenize ft.2).foldl
      (fun inv tok => addEntry inv tok c.id ft.1) inv) inv
  c.keywords.foldl
    (fun inv kw => (tokenize kw).foldl
      (fun inv tok => addEntry inv tok c.id (str "keywords")) inv) inv

/-- The tag-index loop of `_build_index`: append the record id to each
of its tags' lists (creating the list when absent). -/
def addTags (ti : List (Str × List Str)) (c : Component) : List (Str × List Str) :=
  c.tags.foldl (fun ti tag => dinsert ti tag ((alookup tag ti).getD [] ++ [c.id])) ti

/-- The state of a `SearchEngine` after `_build_index`: the catalog, the
id → record map (`self.index`), the inverted index and the tag index. -/
structure Engine where
  components : List Component
  index : List (Str × Component)
  invIndex : InvIndex
  tagIndex : List (Str × List Str)

/-- `SearchEngine.__init__` with a supplied catalog followed by
`_build_index`: for each record in order, `self.index[comp_id] = comp`
(a plain dict assignment: a duplicate id silently overwrites), then the
inverted-index and tag-index insertions. -/
def buildEngine (components : List Component) : Engine :=
  components.foldl
    (fun e c =>
      { e with
        index := dinsert e.index c.id c,
        invIndex := addToInvertedIndex e.invIndex c,
        tagIndex := addTags e.tagIndex c })
    { components := components, index := [], invIndex := [], tagIndex := [] }

/-- The `SearchMode` enum of the source.  Only `PARTIAL` is ever
compared against inside `search`. -/
inductive SearchMode
  | EXACT
  | PARTIAL
  | FUZZY
  | REGEX
deriving DecidableEq

/-- The two parallel dicts built by the scoring loops of `search`:
`scores` and `matched_fields`.  The source's per-record value of
`matched_fields` is a Python `set`; it is modelled as a duplicate-free
list in insertion order (no theorem depends on the enumeration
order). -/
structure ScoreState where
  scores : List (Str × Nat)
  matched : List (Str × List Str)
deriving DecidableEq

/-- `set.update(fields)`: add each field name not already present. -/
def setUpdate (s : List Str) (fields : List Str) : List Str :=
  fields.foldl (fun s f => if s.contains f then s else s ++ [f]) s

/-- One hit of the scoring loops: initialize the record's score to 0 and
its matched-field set to empty when first seen, then add `inc` to the
score and union the field names in.  The source stores scores in a
`float`, but every value it ever stores is a sum of the integers
`len(fields)` and `2 * len(fields)`, so `Nat` is exact. -/
def addHit (st : ScoreState) (cid : Str) (inc : Nat) (fields : List Str) : ScoreState :=
  { scores := dinsert st.scores cid ((alookup cid st.scores).getD 0 + inc),
    matched := dinsert st.matched cid (setUpdate ((alookup cid st.matched).getD []) fields) }

/-- The shared shape of the two inner scoring loops of `search`: every
`(comp_id, fields)` entry of one inverted-index cell credits its record
with `mult * len(fields)` and its field names.  The exact pass uses
`mult = 2` (`len(fields) * 2` in the source) and the substring pass
`mult = 1` (`len(fields)`); in both, `len(fields)` is the length of the
stored field-name list, with multiplicity. -/
def creditEntries (mult : Nat) (m : List (Str × List Str)) (st : ScoreState) : ScoreState :=
  m.foldl (fun st e => addHit st e.1 (mult * e.2.length) e.2) st

/-- The exact-match pass of `search` for one query token: if the token
is a key of the inverted index, every record under it gains
`len(fields) * 2`. -/
def exactPass (inv : InvIndex) (token : Str) (st : ScoreState) : ScoreState :=
  match alookup token inv with
  | none => st
  | some m => creditEntries 2 m st

/-- `startsWith l p`: `p` is a prefix of `l` (character-exact). -/
def startsWith : Str → Str → Bool
  | _, [] => true
  | [], _ :: _ => false
  | c :: cs, p :: ps => c = p && startsWith cs ps

/-- Python's `needle in hay` substring test. -/
def isSubstr (needle : Str) : Str → Bool
  | [] => startsWith [] needle
  | c :: cs => startsWith (c :: cs) needle || isSubstr needle cs

/-- The substring pass of `search` for one query token (run only in
PARTIAL mode): every index token that contains the query token or is
contained in it credits each of its records with `len(fields)`. -/
def substrPass (inv : InvIndex) (token : Str) (st : ScoreState) : ScoreState :=
  inv.foldl
    (fun st e =>
      if isSubstr token e.1 || isSubstr e.1 token then creditEntries 1 e.2 st
      else st)
    st

/-- The body of `search`'s `for token in query_tokens` loop: the exact
pass, then the substring pass when `mode == SearchMode.PARTIAL`. -/
def scoreToken (inv : InvIndex) (mode : SearchMode) (st : ScoreState) (token : Str) : ScoreState :=
  let st := exactPass inv token st
  if mode = SearchMode.PARTIAL then substrPass inv token st else st

/-- The whole scoring phase of `search`, starting from empty dicts. -/
def scoreQuery (inv : InvIndex) (tokens : List Str) (mode : SearchMode) : ScoreState :=
  tokens.foldl (fun st tok => scoreToken inv mode st tok) ⟨[], []⟩

/-- `if category_filter and comp.get('category') != category_filter`:
the filter blocks the record only when it is truthy (a non-empty
string) and the category differs. -/
def catBlocks (cf : Option Str) (comp : Component) : Bool :=
  match cf with
  | none => false
  | some c => !c.isEmpty && !(comp.category == c)

/-- `if tag_filter: ... if not any(tag in comp_tags for tag in
tag_filter)`: the filter blocks the record only when it is truthy (a
non-empty list) and no filter tag is among the record's tags (the
source's `set(...)` conversion only affects membership testing). -/
def tagBlocks (tf : Option (List Str)) (comp : Component) : Bool :=
  match tf with
  | none => false
  | some ts => !ts.isEmpty && !(ts.any (fun t => comp.tags.contains t))

/-- The filtering loop keeps a scored record when its id resolves in
`self.index` (it always does for ids produced by the scoring loops; a
missing id would be a `KeyError` in the source) and neither filter
blocks it. -/
def keepScore (index : List (Str × Component)) (cf : Option Str)
    (tf : Option (List Str)) (p : Str × Nat) : Bool :=
  match alookup p.1 index with
  | none => false
  | some comp => !(catBlocks cf comp) && !(tagBlocks tf comp)

/-- The filtering loop of `search`: the surviving `(comp_id, score)`
pairs, in scoring-dict insertion order (the source builds a new dict
from unique keys, which is exactly a filter of the assoc list). -/
def filterScores (index : List (Str × Component)) (cf : Option Str)
    (tf : Option (List Str)) (scores : List (Str × Nat)) : List (Str × Nat) :=
  scores.filter (keepScore index cf tf)

/-- Insert into a list already sorted by score descending, after every
element of score ≥ its own (so that equal scores keep their original
relative order, as Python's stable `sorted` does). -/
def insertDesc (x : Str × Nat) : List (Str × Nat) → List (Str × Nat)
  | [] => [x]
  | y :: ys => if y.2 < x.2 then x :: y :: ys else y :: insertDesc x ys

/-- `sorted(filtered_scores.items(), key=lambda x: x[1], reverse=True)`:
a stable sort by score descending. -/
def sortDescStable (l : List (Str × Nat)) : List (Str × Nat) :=
  l.foldl (fun acc x => insertDesc x acc) []

/-- Python's `l[:limit]` for an `int` limit: a non-negative limit takes
that many elements from the front; a negative limit drops the last
`-limit` elements (`max(0, len(l) + limit)` elements survive). -/
def pySliceTo (limit : Int) (l : List α) : List α :=
  if 0 ≤ limit then l.take limit.toNat
  else l.take (l.length - (-limit).toNat)

/-- Case-insensitive prefix match of a compiled literal pattern
(`re.compile(re.escape(token), re.IGNORECASE)`) at the start of the
text: character-wise equality after ASCII lowering. -/
def matchCI : Str → Str → Bool
  | [], _ => true
  | _ :: _, [] => false
  | p :: ps, c :: cs => lowerPy c = lowerPy p && matchCI ps cs

/-- Whether the pattern matches anywhere in the text (the question
`pattern.search` would answer); used to reason about `pattern.sub`. -/
def occursCI (pat : Str) : Str → Bool
  | [] => matchCI pat []
  | c :: cs => matchCI pat (c :: cs) || occursCI pat cs

/-- The scanning loop behind `subBold`, driven by a fuel counter so the
recursion is structural: at each position, a (leftmost, non-overlapping)
match of the pattern is wrapped in doubled asterisks — keeping the
matched text's original case, as `m.group()` does — and the scan resumes
after it; otherwise the character is copied.  Each step consumes at
least one character, so fuel `text.length` always suffices for a
nonempty pattern. -/
def subBoldFuel (pat : Str) : Nat → Str → Str
  | 0, text => text
  | fuel + 1, text =>
    match text with
    | [] => []
    | c :: cs =>
      if matchCI pat (c :: cs) then
        str "**" ++ (c :: cs).take pat.length ++ str "**" ++
          subBoldFuel pat fuel ((c :: cs).drop pat.length)
      else c :: subBoldFuel pat fuel cs

/-- `pattern.sub(lambda m: f"**{m.group()}**", text)` for the literal
case-insensitive pattern `pat` (`re.compile(re.escape(token),
re.IGNORECASE)`).  `re.sub` with an empty pattern never arises (tokens
are nonempty); the model returns the text unchanged in that case to
stay total. -/
def subBold (pat : Str) (text : Str) : Str :=
  if pat.isEmpty then text else subBoldFuel pat text.length text

/-- The inner loop of `_generate_highlights`: substitute every query
token in turn into the accumulating text. -/
def highlightField (tokens : List Str) (text : Str) : Str :=
  tokens.foldl (fun t tok => subBold tok t) text

/-- `SearchEngine._generate_highlights`: for `name` then `description`
(both always present per §6), record the highlighted text only when the
substitutions changed it. -/
def generateHighlights (c : Component) (tokens : List Str) : List (Str × Str) :=
  [(str "name", c.name), (str "description", c.description)].foldl
    (fun hs ft =>
      let ht := highlightField tokens ft.2
      if ht = ft.2 then hs else hs ++ [(ft.1, ht)])
    []

/-- The `SearchResult` dataclass.  `score` is `Nat` (see `addHit`);
`matched_fields` is `list(matched_fields[comp_id])` in the model's set
order; `highlights` is the field → highlighted-text dict. -/
structure SearchResult where
  component_id : Str
  name : Str
  category : Str
  description : Str
  score : Nat
  matched_fields : List Str
  highlights : List (Str × Str)
deriving DecidableEq

/-- The body of `search`'s result loop for one `(comp_id, score)` pair:
look the record up in `self.index` (always succeeds for scored ids; a
missing id would be a `KeyError` in the source) and build the
`SearchResult`. -/
def buildResult (index : List (Str × Component)) (qtokens : List Str)
    (matched : List (Str × List Str)) (p : Str × Nat) : Option SearchResult :=
  match alookup p.1 index with
  | none => none
  | some comp =>
    some { component_id := p.1
           name := comp.name
           category := comp.category
           description := comp.description
           score := p.2
           matched_fields := (alookup p.1 matched).getD []
           highlights := generateHighlights comp qtokens }

/-- The ranked `(comp_id, score)` list `search` truncates: scoring,
filtering and sorting, before `[:limit]` is applied. -/
def rankedIds (e : Engine) (query : Str) (mode : SearchMode)
    (cf : Option Str) (tf : Option (List Str)) : List (Str × Nat) :=
  sortDescStable (filterScores e.index cf tf
    (scoreQuery e.invIndex (tokenize (query.map lowerPy)) mode).scores)

/-- `SearchEngine.search`: empty query → no results; otherwise tokenize
`query.lower()`, run the scoring passes, filter, sort by score
descending (stable), truncate to `limit` with Python slice semantics,
and build a `SearchResult` for each survivor. -/
def search (e : Engine) (query : Str) (mode : SearchMode) (limit : Int)
    (cf : Option Str) (tf : Option (List Str)) : List SearchResult :=
  if query.isEmpty then []
  else
    let qtokens := tokenize (query.map lowerPy)
    let st := scoreQuery e.invIndex qtokens mode
    (pySliceTo limit (sortDescStable (filterScores e.index cf tf st.scores))).filterMap
      (buildResult e.index qtokens st.matched)

/-- The first loop of `get_related_components`: walk the record's
explicit `related` list, appending ids that exist in the catalog and are
not yet collected; as soon as the collection reaches `limit` the
function returns it immediately (the `Bool` records that early
return). -/
def addFromRelated (index : List (Str × Component)) (limit : Int) :
    List Str → List Str → List Str × Bool
  | [], acc => (acc, false)
  | relId :: rest, acc =>
    if (alookup relId index).isSome && !acc.contains relId then
      let acc2 := acc ++ [relId]
      if limit ≤ (acc2.length : Int) then (acc2, true)
      else addFromRelated index limit rest acc2
    else addFromRelated index limit rest acc

/-- The second loop of `get_related_components`: walk the catalog in
order, appending ids of other records (`comp['id'] != component_id`) of
the same category that are not yet collected, stopping once `limit` is
reached. -/
def addFromCategory (cid cat : Str) (limit : Int) :
    List Component → List Str → List Str
  | [], acc => acc
  | comp :: rest, acc =>
    if comp.id ≠ cid ∧ comp.category = cat then
      if acc.contains comp.id then addFromCategory cid cat limit rest acc
      else
        let acc2 := acc ++ [comp.id]
        if limit ≤ (acc2.length : Int) then acc2
        else addFromCategory cid cat limit rest acc2
    else addFromCategory cid cat limit rest acc

/-- `SearchEngine.get_related_components`: unknown id → `[]`; otherwise
collect from the explicit `related` list (when the field is present),
returning early if it already fills `limit`, then pad from the
same-category catalog walk. -/
def getRelatedComponents (e : Engine) (cid : Str) (limit : Int) : List Str :=
  match alookup cid e.index with
  | none => []
  | some component =>
    let fromRel :=
      match component.related with
      | some relIds => addFromRelated e.index limit relIds []
      | none => ([], false)
    if fromRel.2 then fromRel.1
    else addFromCategory cid component.category limit e.components fromRel.1

/-- The built-in default catalog of
`SearchEngine._create_default_components`, reproduced verbatim from the
source. -/
def defaultComponents : List Component :=
  [ { id := str "text_input", name := str "st.text_input",
      category := str "input_widgets",
      description := str "単一行のテキスト入力フィールド",
      tags := [str "input", str "text", str "form", str "basic"],
      keywords := [str "テキスト", str "入力", str "文字列", str "フォーム"] },
    { id := str "number_input", name := str "st.number_input",
      category := str "input_widgets",
      description := str "数値入力フィールド",
      tags := [str "input", str "number", str "form", str "basic"],
      keywords := [str "数値", str "入力", str "数字", str "フォーム"] },
    { id := str "text_area", name := str "st.text_area",
      category := str "input_widgets",
      description := str "複数行のテキスト入力エリア",
      tags := [str "input", str "text", str "multiline", str "form"],
      keywords := [str "テキストエリア", str "複数行", str "入力", str "長文"] },
    { id := str "date_input", name := str "st.date_input",
      category := str "input_widgets",
      description := str "日付選択ウィジェット",
      tags := [str "input", str "date", str "calendar", str "時間"],
      keywords := [str "日付", str "カレンダー", str "日時", str "選択"] },
    { id := str "checkbox", name := str "st.checkbox",
      category := str "select_widgets",
      description := str "チェックボックス",
      tags := [str "select", str "boolean", str "toggle", str "basic"],
      keywords := [str "チェック", str "選択", str "オンオフ", str "ブール"] },
    { id := str "radio", name := str "st.radio",
      category := str "select_widgets",
      description := str "ラジオボタン",
      tags := [str "select", str "choice", str "single", str "basic"],
      keywords := [str "ラジオ", str "選択", str "単一選択", str "オプション"] },
    { id := str "selectbox", name := str "st.selectbox",
      category := str "select_widgets",
      description := str "ドロップダウン選択ボックス",
      tags := [str "select", str "dropdown", str "choice", str "basic"],
      keywords := [str "セレクト", str "ドロップダウン", str "選択", str "リスト"] },
    { id := str "multiselect", name := str "st.multiselect",
      category := str "select_widgets",
      description := str "複数選択ボックス",
      tags := [str "select", str "multiple", str "choice", str "list"],
      keywords := [str "複数選択", str "マルチ", str "選択", str "複数"] },
    { id := str "slider", name := str "st.slider",
      category := str "select_widgets",
      description := str "スライダー",
      tags := [str "select", str "range", str "slider", str "basic"],
      keywords := [str "スライダー", str "範囲", str "調整", str "スライド"] },
    { id := str "button", name := str "st.button",
      category := str "input_widgets",
      description := str "ボタン",
      tags := [str "action", str "button", str "click", str "basic"],
      keywords := [str "ボタン", str "クリック", str "アクション", str "実行"] },
    { id := str "dataframe", name := str "st.dataframe",
      category := str "data_widgets",
      description := str "インタラクティブなデータフレーム表示",
      tags := [str "data", str "table", str "dataframe", str "basic"],
      keywords := [str "データフレーム", str "テーブル", str "表", str "データ"] },
    { id := str "table", name := str "st.table",
      category := str "data_widgets",
      description := str "静的なテーブル表示",
      tags := [str "data", str "table", str "static"],
      keywords := [str "テーブル", str "表", str "静的", str "固定"] },
    { id := str "metric", name := str "st.metric",
      category := str "data_widgets",
      description := str "メトリクス表示",
      tags := [str "data", str "metric", str "kpi", str "dashboard"],
      keywords := [str "メトリクス", str "KPI", str "指標", str "ダッシュボード"] },
    { id := str "line_chart", name := str "st.line_chart",
      category := str "chart_widgets",
      description := str "折れ線グラフ",
      tags := [str "chart", str "line", str "graph", str "basic"],
      keywords := [str "折れ線", str "グラフ", str "チャート", str "推移"] },
    { id := str "bar_chart", name := str "st.bar_chart",
      category := str "chart_widgets",
      description := str "棒グラフ",
      tags := [str "chart", str "bar", str "graph", str "basic"],
      keywords := [str "棒グラフ", str "バー", str "チャート", str "比較"] },
    { id := str "area_chart", name := str "st.area_chart",
      category := str "chart_widgets",
      description := str "エリアチャート",
      tags := [str "chart", str "area", str "graph"],
      keywords := [str "エリア", str "面", str "チャート", str "累積"] },
    { id := str "columns", name := str "st.columns",
      category := str "layout_widgets",
      description := str "カラムレイアウト",
      tags := [str "layout", str "columns", str "grid", str "basic"],
      keywords := [str "カラム", str "列", str "レイアウト", str "配置"] },
    { id := str "container", name := str "st.container",
      category := str "layout_widgets",
      description := str "コンテナ",
      tags := [str "layout", str "container", str "group"],
      keywords := [str "コンテナ", str "グループ", str "まとめ", str "整理"] },
    { id := str "expander", name := str "st.expander",
      category := str "layout_widgets",
      description := str "展開可能セクション",
      tags := [str "layout", str "expander", str "collapsible"],
      keywords := [str "展開", str "折りたたみ", str "エクスパンダー", str "詳細"] },
    { id := str "tabs", name := str "st.tabs",
      category := str "layout_widgets",
      description := str "タブレイアウト",
      tags := [str "layout", str "tabs", str "navigation"],
      keywords := [str "タブ", str "切り替え", str "ナビゲーション", str "整理"] } ]

/-- The engine built over the default catalog (the fallback
`SearchEngine()` uses when no metadata file is present). -/
def defaultEngine : Engine := buildEngine defaultComponents

/-- A one-record catalog whose two keyword strings `"ab cd"` and `"ab"`
both produce the token `"ab"`, so the inverted index stores the field
name `keywords` twice for `("ab", "a")`. -/
def kwDupEngine : Engine := buildEngine
  [ { id := str "a", name := str "n", category := str "c", description := str "d",
      tags := [], keywords := [str "ab cd", str "ab"] } ]

/-- A catalog with two records sharing the id `"a"`. -/
def dupIdCatalog : List Component :=
  [ { id := str "a", name := str "first", category := str "c",
      description := str "d", tags := [], keywords := [] },
    { id := str "a", name := str "second", category := str "c",
      description := str "d", tags := [], keywords := [] } ]

/-- A two-record catalog in which the query `"xy"` scores both
records. -/
def twoHitsEngine : Engine := buildEngine
  [ { id := str "a", name := str "xy", category := str "c", description := str "d",
      tags := [], keywords := [] },
    { id := str "b", name := str "xy", category := str "c", description := str "d",
      tags := [], keywords := [] } ]

/-- A one-record catalog whose record lists itself in its explicit
`related` list. -/
def selfRelatedEngine : Engine := buildEngine
  [ { id := str "a", name := str "n", category := str "c", description := str "d",
      tags := [], keywords := [], related := some [str "a"] } ]

/-- A one-record catalog without a `related` field, for exercising
`getRelatedComponents` away from the self-referential case. -/
def plainRelatedEngine : Engine := buildEngine
  [ { id := str "a", name := str "n", category := str "c", description := str "d",
      tags := [], keywords := [] },
    { id := str "b", name := str "n", category := str "c", description := str "d",
      tags := [], keywords := [] } ]

/-- A catalog where the token `"xy"` matches the first record exactly
and is a proper substring of the second record's token `"xyz"`, which
occurs in four fields; in PARTIAL mode the substring-only record
outscores the exact one. -/
def subTokenEngine : Engine := buildEngine
  [ { id := str "a0", name := str "xy", category := str "c", description := str "d",
      tags := [], keywords := [] },
    { id := str "xyz", name := str "xyz", category := str "xyz",
      description := str "xyz", tags := [], keywords := [] } ]

/-- A one-record catalog with the single tag `"t1"`, matched by the
query `"xy"` via its name. -/
def tagOneEngine : Engine := buildEngine
  [ { id := str "a", name := str "xy", category := str "c", description := str "d",
      tags := [str "t1"], keywords := [] } ]

/-- A catalog that does contain the token `"zzzqqq"` (as its record's
id and name). -/
def zzzEngine : Engine := buildEngine
  [ { id := str "zzzqqq", name := str "zzzqqq", category := str "c",
      description := str "d", tags := [], keywords := [] } ]

theorem alookup_dinsert (m : List (Str × β)) (k v k') :
    alookup k' (dinsert m k v) = if k = k' then some v else alookup k' m := by
  induction m with
  | nil => by_cases h : k = k' <;> simp [dinsert, alookup, h]
  | cons p rest ih =>
    obtain ⟨a, b⟩ := p
    by_cases hak : a = k
    · subst hak
      by_cases hk' : a = k' <;> simp [dinsert, alookup, hk']
    · by_cases hk' : a = k'
      · subst hk'
        have : ¬ k = a := fun h => hak h.symm
        simp [dinsert, alookup, hak, this]
      · simp [dinsert, alookup, hak, hk', ih]

theorem mem_fst_dinsert (m : List (Str × β)) (k v a) :
    a ∈ (dinsert m k v).map Prod.fst ↔ a = k ∨ a ∈ m.map Prod.fst := by
  induction m with
  | nil => simp [dinsert, eq_comm]
  | cons p rest ih =>
    obtain ⟨x, b⟩ := p
    by_cases hxk : x = k
    · subst hxk
      rw [show dinsert ((x, b) :: rest) x v = (x, v) :: rest from by simp [dinsert]]
      simp only [List.map_cons, List.mem_cons]
      tauto
    · rw [show dinsert ((x, b) :: rest) k v = (x, b) :: dinsert rest k v from by
        simp [dinsert, hxk]]
      simp only [List.map_cons, List.mem_cons, ih]
      tauto

theorem addHit_scores (st : ScoreState) (c inc f) :
    (addHit st c inc f).scores =
      dinsert st.scores c ((alookup c st.scores).getD 0 + inc) := rfl

theorem alookup_addHit_scores (st : ScoreState) (c inc f c') :
    alookup c' (addHit st c inc f).scores =
      if c = c' then some ((alookup c st.scores).getD 0 + inc)
      else alookup c' st.scores := by
  rw [addHit_scores, alookup_dinsert]

theorem mem_fst_addHit_scores (st : ScoreState) (c inc f a) :
    a ∈ (addHit st c inc f).scores.map Prod.fst ↔
      a = c ∨ a ∈ st.scores.map Prod.fst := by
  rw [addHit_scores, mem_fst_dinsert]

theorem alookup_creditEntries_of_not_mem (mult : Nat) (m : List (Str × List Str))
    (st : ScoreState) (c : Str) (h : c ∉ m.map Prod.fst) :
    alookup c (creditEntries mult m st).scores = alookup c st.scores := by
  induction m generalizing st with
  | nil => rfl
  | cons e rest ih =>
    simp only [List.map_cons, List.mem_cons, not_or] at h
    have step : alookup c (addHit st e.1 (mult * e.2.length) e.2).scores =
        alookup c st.scores := by
      rw [alookup_addHit_scores, if_neg (fun hc => h.1 hc.symm)]
    calc alookup c (creditEntries mult (e :: rest) st).scores
        = alookup c (creditEntries mult rest (addHit st e.1 (mult * e.2.length) e.2)).scores := rfl
      _ = alookup c (addHit st e.1 (mult * e.2.length) e.2).scores := ih _ h.2
      _ = alookup c st.scores := step

theorem alookup_creditEntries_of_mem (mult : Nat) (m : List (Str × List Str))
    (st : ScoreState) (c : Str) (f : List Str)
    (hnd : (m.map Prod.fst).Nodup) (hc : (c, f) ∈ m) :
    alookup c (creditEntries mult m st).scores =
      some ((alookup c st.scores).getD 0 + mult * f.length) := by
  induction m generalizing st with
  | nil => cases hc
  | cons e rest ih =>
    simp only [List.map_cons, List.nodup_cons] at hnd
    rcases List.mem_cons.mp hc with he | hrest
    · subst he
      have hnot : c ∉ rest.map Prod.fst := by
        simpa using hnd.1
      calc alookup c (creditEntries mult ((c, f) :: rest) st).scores
          = alookup c (creditEntries mult rest (addHit st c (mult * f.length) f)).scores := rfl
        _ = alookup c (addHit st c (mult * f.length) f).scores :=
            alookup_creditEntries_of_not_mem _ _ _ _ hnot
        _ = some ((alookup c st.scores).getD 0 + mult * f.length) := by
            rw [alookup_addHit_scores, if_pos rfl]
    · have hne : e.1 ≠ c := by
        intro he1
        have hcmem : c ∈ rest.map Prod.fst := List.mem_map.mpr ⟨(c, f), hrest, rfl⟩
        exact hnd.1 (he1 ▸ hcmem)
      have step : alookup c (addHit st e.1 (mult * e.2.length) e.2).scores =
          alookup c st.scores := by
        rw [alookup_addHit_scores, if_neg hne]
      calc alookup c (creditEntries mult (e :: rest) st).scores
          = alookup c (creditEntries mult rest (addHit st e.1 (mult * e.2.length) e.2)).scores := rfl
        _ = some ((alookup c (addHit st e.1 (mult * e.2.length) e.2).scores).getD 0
              + mult * f.length) := ih _ hnd.2 hrest
        _ = some ((alookup c st.scores).getD 0 + mult * f.length) := by rw [step]

theorem mem_fst_creditEntries (mult : Nat) (m : List (Str × List Str))
    (st : ScoreState) (a : Str) :
    a ∈ (creditEntries mult m st).scores.map Prod.fst ↔
      a ∈ st.scores.map Prod.fst ∨ a ∈ m.map Prod.fst := by
  induction m generalizing st with
  | nil => simp [creditEntries]
  | cons e rest ih =>
    have : creditEntries mult (e :: rest) st =
        creditEntries mult rest (addHit st e.1 (mult * e.2.length) e.2) := rfl
    rw [this, ih]
    simp only [mem_fst_addHit_scores, List.map_cons, List.mem_cons]
    tauto

theorem exactPass_of_not_key (inv : InvIndex) (t : Str) (st : ScoreState)
    (h : alookup t inv = none) : exactPass inv t st = st := by
  simp [exactPass, h]

theorem mem_fst_exactPass (inv : InvIndex) (t : Str) (st : ScoreState) (a : Str) :
    a ∈ (exactPass inv t st).scores.map Prod.fst ↔
      a ∈ st.scores.map Prod.fst ∨
        ∃ m, alookup t inv = some m ∧ a ∈ m.map Prod.fst := by
  unfold exactPass
  cases h : alookup t inv with
  | none => simp
  | some m =>
    rw [mem_fst_creditEntries]
    constructor
    · rintro (hst | hm)
      · exact Or.inl hst
      · exact Or.inr ⟨m, rfl, hm⟩
    · rintro (hst | ⟨m', hm', ha⟩)
      · exact Or.inl hst
      · obtain rfl : m = m' := by injection hm'
        exact Or.inr ha

theorem mem_fst_substrPass_of_mem (inv : InvIndex) (t : Str) (st : ScoreState)
    (a : Str) (h : a ∈ st.scores.map Prod.fst) :
    a ∈ (substrPass inv t st).scores.map Prod.fst := by
  unfold substrPass
  induction inv generalizing st with
  | nil => exact h
  | cons e rest ih =>
    simp only [List.foldl_cons]
    apply ih
    by_cases hc : isSubstr t e.1 || isSubstr e.1 t
    · rw [if_pos hc]
      exact (mem_fst_creditEntries 1 e.2 st a).mpr (Or.inl h)
    · rwa [if_neg hc]

theorem mem_fst_scoreToken_mono (inv : InvIndex) (t : Str) (st₁ st₂ : ScoreState)
    (hsub : ∀ a, a ∈ st₁.scores.map Prod.fst → a ∈ st₂.scores.map Prod.fst)
    (a : Str) (h : a ∈ (scoreToken inv SearchMode.EXACT st₁ t).scores.map Prod.fst) :
    a ∈ (scoreToken inv SearchMode.PARTIAL st₂ t).scores.map Prod.fst := by
  have h1 : a ∈ (exactPass inv t st₁).scores.map Prod.fst := by
    simpa [scoreToken] using h
  have h2 : a ∈ (exactPass inv t st₂).scores.map Prod.fst := by
    rcases (mem_fst_exactPass inv t st₁ a).mp h1 with hm | hm
    · exact (mem_fst_exactPass inv t st₂ a).mpr (Or.inl (hsub a hm))
    · exact (mem_fst_exactPass inv t st₂ a).mpr (Or.inr hm)
  simpa [scoreToken] using mem_fst_substrPass_of_mem inv t _ a h2

theorem mem_fst_scoreQuery_mono (inv : InvIndex) (toks : List Str) (a : Str)
    (h : a ∈ (scoreQuery inv toks SearchMode.EXACT).scores.map Prod.fst) :
    a ∈ (scoreQuery inv toks SearchMode.PARTIAL).scores.map Prod.fst := by
  have main : ∀ (ts : List Str) (st₁ st₂ : ScoreState),
      (∀ b, b ∈ st₁.scores.map Prod.fst → b ∈ st₂.scores.map Prod.fst) →
      ∀ b, b ∈ (ts.foldl (fun st tok => scoreToken inv SearchMode.EXACT st tok) st₁).scores.map Prod.fst →
        b ∈ (ts.foldl (fun st tok => scoreToken inv SearchMode.PARTIAL st tok) st₂).scores.map Prod.fst := by
    intro ts
    induction ts with
    | nil => intro st₁ st₂ hsub b hb; exact hsub b hb
    | cons t rest ih =>
      intro st₁ st₂ hsub b hb
      simp only [List.foldl_cons] at hb ⊢
      exact ih _ _ (fun x hx => mem_fst_scoreToken_mono inv t st₁ st₂ hsub x hx) b hb
  exact main toks ⟨[], []⟩ ⟨[], []⟩ (fun _ h => h) a h

theorem mem_insertDesc (x y : Str × Nat) (l : List (Str × Nat)) :
    x ∈ insertDesc y l ↔ x = y ∨ x ∈ l := by
  induction l with
  | nil => simp [insertDesc]
  | cons z rest ih =>
    unfold insertDesc
    by_cases h : z.2 < y.2
    · simp [h]
    · simp only [if_neg h, List.mem_cons, ih]
      tauto

theorem mem_sortDescStable (x : Str × Nat) (l : List (Str × Nat)) :
    x ∈ sortDescStable l ↔ x ∈ l := by
  have main : ∀ (l acc : List (Str × Nat)),
      x ∈ l.foldl (fun acc y => insertDesc y acc) acc ↔ x ∈ acc ∨ x ∈ l := by
    intro l
    induction l with
    | nil => simp
    | cons y rest ih =>
      intro acc
      simp only [List.foldl_cons, ih, mem_insertDesc, List.mem_cons]
      tauto
  simpa [sortDescStable] using main l []

theorem mem_of_mem_pySliceTo (k : Int) (l : List α) (x : α)
    (h : x ∈ pySliceTo k l) : x ∈ l := by
  unfold pySliceTo at h
  by_cases hk : 0 ≤ k
  · exact List.mem_of_mem_take (by simpa [hk] using h)
  · exact List.mem_of_mem_take (by simpa [hk] using h)

theorem length_pySliceTo_le (k : Int) (l : List α) (hk : 0 ≤ k) :
    ((pySliceTo k l).length : Int) ≤ k := by
  unfold pySliceTo
  rw [if_pos hk]
  have h1 : (l.take k.toNat).length ≤ k.toNat := by
    simp [List.length_take]
  calc ((l.take k.toNat).length : Int) ≤ (k.toNat : Int) := by exact_mod_cast h1
    _ = k := Int.toNat_of_nonneg hk

theorem pySliceTo_of_length_le (k : Int) (l : List α)
    (h : (l.length : Int) ≤ k) : pySliceTo k l = l := by
  have hk : 0 ≤ k := le_trans (by positivity) h
  unfold pySliceTo
  rw [if_pos hk]
  apply List.take_of_length_le
  have : (l.length : Int) ≤ (k.toNat : Int) := by
    rwa [Int.toNat_of_nonneg hk]
  exact_mod_cast this

theorem mem_filterScores (index : List (Str × Component)) (cf : Option Str)
    (tf : Option (List Str)) (scores : List (Str × Nat)) (p : Str × Nat) :
    p ∈ filterScores index cf tf scores ↔
      p ∈ scores ∧ keepScore index cf tf p = true := by
  simp [filterScores, List.mem_filter]

theorem keepScore_spec (index : List (Str × Component)) (cf : Option Str)
    (tf : Option (List Str)) (p : Str × Nat) (h : keepScore index cf tf p = true) :
    ∃ comp, alookup p.1 index = some comp ∧
      catBlocks cf comp = false ∧ tagBlocks tf comp = false := by
  unfold keepScore at h
  cases hc : alookup p.1 index with
  | none => rw [hc] at h; cases h
  | some comp =>
    rw [hc] at h
    simp only [Bool.and_eq_true, Bool.not_eq_true'] at h
    exact ⟨comp, rfl, h.1, h.2⟩

theorem buildResult_of_alookup (index : List (Str × Component)) (qtokens : List Str)
    (matched : List (Str × List Str)) (p : Str × Nat) (comp : Component)
    (h : alookup p.1 index = some comp) :
    buildResult index qtokens matched p =
      some { component_id := p.1
             name := comp.name
             category := comp.category
             description := comp.description
             score := p.2
             matched_fields := (alookup p.1 matched).getD []
             highlights := generateHighlights comp qtokens } := by
  simp [buildResult, h]

theorem scoreToken_of_ne_PARTIAL (inv : InvIndex) (mode : SearchMode)
    (h : mode ≠ SearchMode.PARTIAL) (st : ScoreState) (t : Str) :
    scoreToken inv mode st t = scoreToken inv SearchMode.EXACT st t := by
  simp [scoreToken, h]

theorem scoreQuery_of_ne_PARTIAL (inv : InvIndex) (toks : List Str)
    (mode : SearchMode) (h : mode ≠ SearchMode.PARTIAL) :
    scoreQuery inv toks mode = scoreQuery inv toks SearchMode.EXACT := by
  have main : ∀ (ts : List Str) (st : ScoreState),
      ts.foldl (fun st tok => scoreToken inv mode st tok) st =
        ts.foldl (fun st tok => scoreToken inv SearchMode.EXACT st tok) st := by
    intro ts
    induction ts with
    | nil => intro st; rfl
    | cons t rest ih =>
      intro st
      simp only [List.foldl_cons, scoreToken_of_ne_PARTIAL inv mode h, ih]
  simpa [scoreQuery] using main toks ⟨[], []⟩

theorem buildEngine_index (comps : List Component) :
    (buildEngine comps).index = comps.foldl (fun m c => dinsert m c.id c) [] := by
  have main : ∀ (cs : List Component) (e : Engine),
      (cs.foldl (fun e c =>
        { e with
          index := dinsert e.index c.id c,
          invIndex := addToInvertedIndex e.invIndex c,
          tagIndex := addTags e.tagIndex c }) e).index =
      cs.foldl (fun m c => dinsert m c.id c) e.index := by
    intro cs
    induction cs with
    | nil => intro e; rfl
    | cons c rest ih => intro e; simp only [List.foldl_cons, ih]
  simpa [buildEngine] using main comps _

theorem alookup_foldl_dinsert_id (comps : List Component)
    (m : List (Str × Component)) (k : Str) :
    alookup k (comps.foldl (fun m c => dinsert m c.id c) m) =
      match comps.reverse.find? (fun c => c.id == k) with
      | some c => some c
      | none => alookup k m := by
  induction comps generalizing m with
  | nil => simp
  | cons c rest ih =>
    simp only [List.foldl_cons, List.reverse_cons, List.find?_append]
    rw [ih]
    cases hr : rest.reverse.find? (fun c => c.id == k) with
    | some c' => simp
    | none =>
      rw [alookup_dinsert]
      by_cases hck : c.id = k
      · have hb : (c.id == k) = true := beq_iff_eq.mpr hck
        simp [hck, hb, List.find?, Option.or]
      · have hb : (c.id == k) = false := by
          simpa using hck
        simp [hck, hb, List.find?, Option.or]

theorem not_mem_addFromRelated (index : List (Str × Component)) (limit : Int)
    (cid : Str) :
    ∀ (rels acc : List Str), cid ∉ acc → cid ∉ rels →
      cid ∉ (addFromRelated index limit rels acc).1 := by
  intro rels
  induction rels with
  | nil => intro acc hacc _; exact hacc
  | cons r rest ih =>
    intro acc hacc hrels
    have hr : cid ≠ r := fun h => hrels (h ▸ List.mem_cons_self r rest)
    have hrest : cid ∉ rest := fun h => hrels (List.mem_cons_of_mem r h)
    unfold addFromRelated
    by_cases h1 : ((alookup r index).isSome && !acc.contains r) = true
    · rw [if_pos h1]
      have hacc2 : cid ∉ acc ++ [r] := by
        intro h
        rcases List.mem_append.mp h with h | h
        · exact hacc h
        · exact hr (List.mem_singleton.mp h)
      by_cases h2 : limit ≤ ((acc ++ [r]).length : Int)
      · rw [if_pos h2]; exact hacc2
      · rw [if_neg h2]; exact ih _ hacc2 hrest
    · rw [if_neg h1]; exact ih _ hacc hrest

theorem not_mem_addFromCategory (cid cat : Str) (limit : Int) :
    ∀ (comps : List Component) (acc : List Str), cid ∉ acc →
      cid ∉ addFromCategory cid cat limit comps acc := by
  intro comps
  induction comps with
  | nil => intro acc hacc; exact hacc
  | cons comp rest ih =>
    intro acc hacc
    unfold addFromCategory
    by_cases h1 : comp.id ≠ cid ∧ comp.category = cat
    · rw [if_pos h1]
      by_cases h2 : acc.contains comp.id = true
      · rw [if_pos h2]; exact ih _ hacc
      · rw [if_neg h2]
        have hacc2 : cid ∉ acc ++ [comp.id] := by
          intro h
          rcases List.mem_append.mp h with h | h
          · exact hacc h
          · exact h1.1 (List.mem_singleton.mp h).symm
        by_cases h3 : limit ≤ ((acc ++ [comp.id]).length : Int)
        · rw [if_pos h3]; exact hacc2
        · rw [if_neg h3]; exact ih _ hacc2
    · rw [if_neg h1]; exact ih _ hacc

theorem matchCI_length (pat : Str) :
    ∀ text : Str, matchCI pat text = true → pat.length ≤ text.length := by
  induction pat with
  | nil => intro text _; simp
  | cons p ps ih =>
    intro text h
    cases text with
    | nil => cases h
    | cons c cs =>
      simp only [matchCI, Bool.and_eq_true] at h
      have := ih cs h.2
      simpa using Nat.succ_le_succ this

theorem occursCI_nil_eq_false (pat : Str) (hp : pat ≠ []) :
    occursCI pat [] = false := by
  cases pat with
  | nil => exact absurd rfl hp
  | cons p ps => rfl

theorem subBoldFuel_of_not_occurs (pat : Str) :
    ∀ (fuel : Nat) (text : Str), occursCI pat text = false →
      subBoldFuel pat fuel text = text := by
  intro fuel
  induction fuel with
  | zero => intro text _; rfl
  | succ n ih =>
    intro text h
    cases text with
    | nil => rfl
    | cons c cs =>
      simp only [occursCI, Bool.or_eq_false_iff] at h
      simp only [subBoldFuel, h.1, Bool.false_eq_true, if_false, ih cs h.2]

theorem length_le_subBoldFuel (pat : Str) :
    ∀ (fuel : Nat) (text : Str), text.length ≤ (subBoldFuel pat fuel text).length := by
  intro fuel
  induction fuel with
  | zero => intro text; exact le_refl _
  | succ n ih =>
    intro text
    cases text with
    | nil => exact le_refl _
    | cons c cs =>
      by_cases hm : matchCI pat (c :: cs) = true
      · have hlen : pat.length ≤ (c :: cs).length := matchCI_length pat _ hm
        have hrec := ih ((c :: cs).drop pat.length)
        have hB : (str "**").length = 2 := rfl
        simp only [subBoldFuel, hm, if_true]
        rw [List.length_append, List.length_append, List.length_append, hB,
          List.length_take, Nat.min_eq_left hlen]
        rw [List.length_drop] at hrec
        omega
      · have hrec := ih cs
        simp only [subBoldFuel, hm, Bool.false_eq_true, if_false, List.length_cons]
        omega

theorem subBoldFuel_length_of_occurs (pat : Str) (hp : pat ≠ []) :
    ∀ (fuel : Nat) (text : Str), text.length ≤ fuel →
      occursCI pat text = true →
      text.length + 4 ≤ (subBoldFuel pat fuel text).length := by
  intro fuel
  induction fuel with
  | zero =>
    intro text hlen hocc
    have : text = [] := List.eq_nil_of_length_eq_zero (Nat.le_zero.mp hlen)
    rw [this, occursCI_nil_eq_false pat hp] at hocc
    cases hocc
  | succ n ih =>
    intro text hlen hocc
    cases text with
    | nil =>
      rw [occursCI_nil_eq_false pat hp] at hocc
      cases hocc
    | cons c cs =>
      by_cases hm : matchCI pat (c :: cs) = true
      · have hplen : pat.length ≤ (c :: cs).length := matchCI_length pat _ hm
        have hrec := length_le_subBoldFuel pat n ((c :: cs).drop pat.length)
        have hB : (str "**").length = 2 := rfl
        simp only [subBoldFuel, hm, if_true]
        rw [List.length_append, List.length_append, List.length_append, hB,
          List.length_take, Nat.min_eq_left hplen]
        rw [List.length_drop] at hrec
        omega
      · simp only [occursCI, Bool.or_eq_true] at hocc
        rcases hocc with hocc | hocc
        · exact absurd hocc hm
        · have hcs : cs.length ≤ n := by
            simp only [List.length_cons] at hlen
            omega
          have := ih cs hcs hocc
          simp only [subBoldFuel, hm, Bool.false_eq_true, if_false, List.length_cons]
          omega

theorem subBold_of_not_occurs (pat text : Str) (h : occursCI pat text = false) :
    subBold pat text = text := by
  unfold subBold
  by_cases hp : pat.isEmpty
  · rw [if_pos hp]
  · rw [if_neg hp]
    exact subBoldFuel_of_not_occurs pat text.length text h

theorem length_le_subBold (pat text : Str) :
    text.length ≤ (subBold pat text).length := by
  unfold subBold
  by_cases hp : pat.isEmpty
  · rw [if_pos hp]
  · rw [if_neg hp]
    exact length_le_subBoldFuel pat text.length text

theorem subBold_length_of_occurs (pat text : Str) (hp : pat ≠ [])
    (h : occursCI pat text = true) :
    text.length + 4 ≤ (subBold pat text).length := by
  unfold subBold
  have hp' : pat.isEmpty = false := by
    cases pat with
    | nil => exact absurd rfl hp
    | cons a as => rfl
  rw [if_neg (by simp [hp'] : ¬ pat.isEmpty = true)]
  exact subBoldFuel_length_of_occurs pat hp text.length text (le_refl _) h

theorem highlightField_of_not_occurs (toks : List Str) (text : Str)
    (h : ∀ t ∈ toks, occursCI t text = false) :
    highlightField toks text = text := by
  induction toks with
  | nil => rfl
  | cons t rest ih =>
    have h1 : subBold t text = text :=
      subBold_of_not_occurs t text (h t (List.mem_cons_self t rest))
    have : highlightField (t :: rest) text = highlightField rest (subBold t text) := rfl
    rw [this, h1]
    exact ih (fun t' ht' => h t' (List.mem_cons_of_mem t ht'))

theorem length_le_highlightField (toks : List Str) :
    ∀ text : Str, text.length ≤ (highlightField toks text).length := by
  induction toks with
  | nil => intro text; exact le_refl _
  | cons t rest ih =>
    intro text
    have h1 : highlightField (t :: rest) text = highlightField rest (subBold t text) := rfl
    rw [h1]
    exact le_trans (length_le_subBold t text) (ih (subBold t text))

theorem highlightField_length_of_occurs (toks : List Str) (text : Str)
    (hne : ∀ t ∈ toks, t ≠ []) (h : ∃ t ∈ toks, occursCI t text = true) :
    text.length + 4 ≤ (highlightField toks text).length := by
  induction toks with
  | nil => obtain ⟨t, ht, _⟩ := h; cases ht
  | cons t rest ih =>
    have hstep : highlightField (t :: rest) text = highlightField rest (subBold t text) := rfl
    by_cases hocc : occursCI t text = true
    · have h1 : text.length + 4 ≤ (subBold t text).length :=
        subBold_length_of_occurs t text (hne t (List.mem_cons_self t rest)) hocc
      rw [hstep]
      exact le_trans h1 (length_le_highlightField rest (subBold t text))
    · have hsub : subBold t text = text :=
        subBold_of_not_occurs t text (Bool.eq_false_iff.mpr hocc)
      rw [hstep, hsub]
      obtain ⟨t', ht', hocc'⟩ := h
      rcases List.mem_cons.mp ht' with rfl | ht'
      · exact absurd hocc' hocc
      · exact ih (fun x hx => hne x (List.mem_cons_of_mem t hx)) ⟨t', ht', hocc'⟩

theorem highlightField_ne_iff (toks : List Str) (text : Str)
    (hne : ∀ t ∈ toks, t ≠ []) :
    highlightField toks text ≠ text ↔ ∃ t ∈ toks, occursCI t text = true := by
  constructor
  · intro h
    by_contra hno
    push_neg at hno
    exact h (highlightField_of_not_occurs toks text
      (fun t ht => Bool.eq_false_iff.mpr (hno t ht)))
  · intro h heq
    have := highlightField_length_of_occurs toks text hne h
    rw [heq] at this
    omega

theorem alookup_generateHighlights_name (c : Component) (toks : List Str) :
    alookup (str "name") (generateHighlights c toks) =
      if highlightField toks c.name = c.name then none
      else some (highlightField toks c.name) := by
  have hne : ¬ str "name" = str "description" := by decide
  have hne' : ¬ str "description" = str "name" := by decide
  by_cases h1 : highlightField toks c.name = c.name <;>
    by_cases h2 : highlightField toks c.description = c.description <;>
      simp [generateHighlights, h1, h2, alookup, hne, hne']

theorem alookup_generateHighlights_description (c : Component) (toks : List Str) :
    alookup (str "description") (generateHighlights c toks) =
      if highlightField toks c.description = c.description then none
      else some (highlightField toks c.description) := by
  have hne : ¬ str "name" = str "description" := by decide
  have hne' : ¬ str "description" = str "name" := by decide
  by_cases h1 : highlightField toks c.name = c.name <;>
    by_cases h2 : highlightField toks c.description = c.description <;>
      simp [generateHighlights, h1, h2, alookup, hne, hne']

theorem not_nil_mem_runsAcc (p : Char → Bool) :
    ∀ (l acc : List Char), [] ∉ runsAcc p l acc := by
  intro l
  induction l with
  | nil =>
    intro acc h
    unfold runsAcc at h
    by_cases ha : acc.isEmpty
    · rw [if_pos ha] at h; cases h
    · rw [if_neg ha] at h
      have hrev : ([] : List Char) = acc.reverse := List.mem_singleton.mp h
      have hnil : acc = [] := by simpa using hrev.symm
      rw [hnil] at ha
      exact ha rfl
  | cons c cs ih =>
    intro acc h
    unfold runsAcc at h
    by_cases hp : p c
    · rw [if_pos hp] at h
      exact ih (c :: acc) h
    · rw [if_neg hp] at h
      by_cases ha : acc.isEmpty
      · rw [if_pos ha] at h
        exact ih [] h
      · rw [if_neg ha] at h
        rcases List.mem_cons.mp h with hrev | h2
        · have hnil : acc = [] := by simpa using hrev.symm
          rw [hnil] at ha
          exact ha rfl
        · exact ih [] h2

theorem not_nil_mem_runsBy (p : Char → Bool) (l : List Char) :
    [] ∉ runsBy p l :=
  not_nil_mem_runsAcc p l []

theorem length_mem_bigrams (w : List Char) :
    ∀ t ∈ bigrams w, t.length = 2 := by
  induction w with
  | nil => intro t ht; cases ht
  | cons a rest ih =>
    intro t ht
    cases rest with
    | nil => cases ht
    | cons b rest2 =>
      rcases List.mem_cons.mp ht with rfl | ht
      · rfl
      · exact ih t ht

theorem mem_of_mem_pyDedup (l : List Str) (t : Str) (h : t ∈ pyDedup l) : t ∈ l := by
  have main : ∀ (l acc : List Str),
      t ∈ l.foldl (fun acc t => if acc.contains t then acc else acc ++ [t]) acc →
        t ∈ acc ∨ t ∈ l := by
    intro l
    induction l with
    | nil => intro acc h; exact Or.inl h
    | cons x rest ih =>
      intro acc h
      simp only [List.foldl_cons] at h
      rcases ih _ h with hacc | hrest
      · by_cases hc : acc.contains x = true
        · rw [if_pos hc] at hacc
          exact Or.inl hacc
        · rw [if_neg hc] at hacc
          rcases List.mem_append.mp hacc with h | h
          · exact Or.inl h
          · exact Or.inr (List.mem_cons.mpr (Or.inl (List.mem_singleton.mp h)))
      · exact Or.inr (List.mem_cons_of_mem x hrest)
  rcases main l [] h with h | h
  · cases h
  · exact h

theorem tokenize_ne_nil (text : Str) : ∀ t ∈ tokenize text, t ≠ [] := by
  intro t ht
  unfold tokenize at ht
  by_cases he : text.isEmpty
  · rw [if_pos he] at ht; cases ht
  · rw [if_neg he] at ht
    have ht' := mem_of_mem_pyDedup _ _ ht
    rcases List.mem_append.mp ht' with h | h
    · intro hnil
      rw [hnil] at h
      exact not_nil_mem_runsBy isWordCharPy _ h
    · rw [List.mem_flatten] at h
      obtain ⟨bg, hbg, htbg⟩ := h
      rw [List.mem_map] at hbg
      obtain ⟨run, _, hrun⟩ := hbg
      have := length_mem_bigrams run t (hrun ▸ htbg)
      intro hnil
      rw [hnil] at this
      cases this

theorem mem_search_elim (e : Engine) (q : Str) (mode : SearchMode) (k : Int)
    (cf : Option Str) (tf : Option (List Str)) (r : SearchResult)
    (h : r ∈ search e q mode k cf tf) :
    ∃ p comp,
      p ∈ pySliceTo k (sortDescStable (filterScores e.index cf tf
        (scoreQuery e.invIndex (tokenize (q.map lowerPy)) mode).scores)) ∧
      keepScore e.index cf tf p = true ∧
      alookup p.1 e.index = some comp ∧
      r = { component_id := p.1
            name := comp.name
            category := comp.category
            description := comp.description
            score := p.2
            matched_fields := (alookup p.1
              (scoreQuery e.invIndex (tokenize (q.map lowerPy)) mode).matched).getD []
            highlights := generateHighlights comp (tokenize (q.map lowerPy)) } := by
  unfold search at h
  by_cases hq : q.isEmpty = true
  · rw [if_pos hq] at h; cases h
  · rw [if_neg hq] at h
    simp only [] at h
    obtain ⟨p, hp, hb⟩ := List.mem_filterMap.mp h
    have hps : p ∈ sortDescStable (filterScores e.index cf tf
        (scoreQuery e.invIndex (tokenize (q.map lowerPy)) mode).scores) :=
      mem_of_mem_pySliceTo _ _ _ hp
    have hpf : p ∈ filterScores e.index cf tf
        (scoreQuery e.invIndex (tokenize (q.map lowerPy)) mode).scores :=
      (mem_sortDescStable _ _).mp hps
    have hkeep : keepScore e.index cf tf p = true :=
      ((mem_filterScores _ _ _ _ _).mp hpf).2
    obtain ⟨comp, hcomp, _, _⟩ := keepScore_spec _ _ _ _ hkeep
    rw [buildResult_of_alookup _ _ _ _ _ hcomp] at hb
    injection hb with hb
    exact ⟨p, comp, hp, hkeep, hcomp, hb.symm⟩

/-- C1, counterexample: in `kwDupEngine` the token `"ab"` is produced by
both keyword strings of record `"a"`, so its field-entry list is
`['keywords', 'keywords']` — one distinct field name, multiplicity two —
and the exact-match pass of `search` increments the score by
`2 × 2 = 4`, not by `2 × 1` as the claim states. -/
theorem c1_counterexample :
    alookup (str "ab") kwDupEngine.invIndex =
      some [(str "a", [str "keywords", str "keywords"])] ∧
    (search kwDupEngine (str "ab") SearchMode.EXACT 10 none none).map
      (fun r => (r.component_id, r.score)) = [(str "a", 4)] := by
  decide

/-- C1 (amended): in the exact-match pass, a record mapped under a query
token has its score incremented by exactly `2 ×` the number of
field-name ENTRIES stored for it under that token (the multiplicity,
`len(fields) * 2` in the source), which exceeds `2 ×` the distinct
count when several keyword strings of the same record produce the same
token. -/
theorem c1_exact_increment (inv : InvIndex) (t c : Str)
    (m : List (Str × List Str)) (f : List Str) (st : ScoreState)
    (hm : alookup t inv = some m) (hnd : (m.map Prod.fst).Nodup)
    (hc : (c, f) ∈ m) :
    alookup c (exactPass inv t st).scores =
      some ((alookup c st.scores).getD 0 + 2 * f.length) := by
  unfold exactPass
  rw [hm]
  exact alookup_creditEntries_of_mem 2 m st c f hnd hc

/-- C1, witness: the amended increment rule evaluated in `kwDupEngine`
at token `"ab"`: the score becomes `0 + 2 * 2 = 4`. -/
theorem c1_exact_increment_witness :
    alookup (str "a") (exactPass kwDupEngine.invIndex (str "ab") ⟨[], []⟩).scores =
      some 4 :=
  (c1_exact_increment kwDupEngine.invIndex (str "ab") (str "a")
    [(str "a", [str "keywords", str "keywords"])] [str "keywords", str "keywords"]
    ⟨[], []⟩ (by decide) (by decide) (by decide)).trans (by decide)

/-- C2, counterexample: building an engine over `dupIdCatalog` (two
records with id `"a"`) raises no error — `buildEngine` is total, exactly
as `_build_index` has no validation path — and the id → record map holds
the SECOND record (`name = "second"`): the last-seen record silently
overwrote the earlier one, contradicting the claim. -/
theorem c2_counterexample :
    alookup (str "a") (buildEngine dupIdCatalog).index =
      some { id := str "a", name := str "second", category := str "c",
             description := str "d", tags := [], keywords := [] } := by
  decide

/-- C2 (amended): engine construction never fails on duplicate ids; for
every catalog, the id → record map resolves an id to the LAST record in
catalog order carrying it (the silent overwrite of
`self.index[comp_id] = comp`). -/
theorem c2_last_record_wins (comps : List Component) (cid : Str) :
    alookup cid (buildEngine comps).index =
      comps.reverse.find? (fun c => c.id == cid) := by
  rw [buildEngine_index, alookup_foldl_dinsert_id]
  cases comps.reverse.find? (fun c => c.id == cid) <;> rfl

/-- C3, counterexample: with `limit = -1` against `twoHitsEngine` (two
records scored by the query `"xy"`), `search` returns one result, not
the empty list: Python's `sorted_results[:-1]` drops only the last
element. -/
theorem c3_counterexample :
    (search twoHitsEngine (str "xy") SearchMode.EXACT (-1) none none).map
      SearchResult.component_id = [str "a"] := by
  decide

/-- C3 (amended): for every engine, query, mode and filters, `search`
with `limit = k ≥ 0` returns at most `k` results, and `limit = 0`
returns the empty list; a NEGATIVE limit instead truncates by Python
slice semantics (`max(0, n + k)` survivors), which can be nonempty. -/
theorem c3_limit_respected (e : Engine) (q : Str) (mode : SearchMode)
    (cf : Option Str) (tf : Option (List Str)) (k : Int) (hk : 0 ≤ k) :
    ((search e q mode k cf tf).length : Int) ≤ k ∧
      search e q mode 0 cf tf = [] := by
  constructor
  · unfold search
    by_cases hq : q.isEmpty = true
    · rw [if_pos hq]
      simpa using hk
    · rw [if_neg hq]
      simp only []
      have h1 := List.length_filterMap_le
        (buildResult e.index (tokenize (q.map lowerPy))
          (scoreQuery e.invIndex (tokenize (q.map lowerPy)) mode).matched)
        (pySliceTo k (sortDescStable (filterScores e.index cf tf
          (scoreQuery e.invIndex (tokenize (q.map lowerPy)) mode).scores)))
      have h2 := length_pySliceTo_le k (sortDescStable (filterScores e.index cf tf
        (scoreQuery e.invIndex (tokenize (q.map lowerPy)) mode).scores)) hk
      calc ((List.filterMap _ _).length : Int)
          ≤ ((pySliceTo k _).length : Int) := by exact_mod_cast h1
        _ ≤ k := h2
  · unfold search
    by_cases hq : q.isEmpty = true
    · rw [if_pos hq]
    · rw [if_neg hq]
      have hslice : pySliceTo (0 : Int) (sortDescStable (filterScores e.index cf tf
          (scoreQuery e.invIndex (tokenize (q.map lowerPy)) mode).scores)) = [] := by
        simp [pySliceTo]
      simp only [hslice, List.filterMap_nil]

/-- C3, witness: the amended limit law at `twoHitsEngine`, query
`"xy"`, `k = 1`. -/
theorem c3_limit_respected_witness :
    ((search twoHitsEngine (str "xy") SearchMode.EXACT 1 none none).length : Int) ≤ 1 ∧
      search twoHitsEngine (str "xy") SearchMode.EXACT 0 none none = [] :=
  c3_limit_respected twoHitsEngine (str "xy") SearchMode.EXACT none none 1 (by decide)

/-- C4, counterexample: in `selfRelatedEngine` the record `"a"` lists
itself in its explicit `related` list, and
`get_related_components("a", 5)` returns `["a"]` — the record itself —
because the explicit-`related` loop has no self-exclusion check. -/
theorem c4_counterexample :
    getRelatedComponents selfRelatedEngine (str "a") 5 = [str "a"] := by
  decide

/-- C4 (amended): `get_related_components(x, n)` never includes `x`
whenever `x`'s own explicit `related` list does not contain `x` (in
particular whenever the `related` field is absent); the same-category
fallback always excludes `x`, only the explicit `related` path can
return it. -/
theorem c4_self_exclusion (e : Engine) (cid : Str) (limit : Int)
    (comp : Component) (hcomp : alookup cid e.index = some comp)
    (hrel : cid ∉ comp.related.getD []) :
    cid ∉ getRelatedComponents e cid limit := by
  unfold getRelatedComponents
  rw [hcomp]
  cases hr : comp.related with
  | none =>
    simp only [hr]
    intro hmem
    exact not_mem_addFromCategory cid comp.category limit e.components []
      (List.not_mem_nil cid) hmem
  | some relIds =>
    rw [hr] at hrel
    have hrel' : cid ∉ relIds := by simpa using hrel
    simp only [hr]
    have h1 : cid ∉ (addFromRelated e.index limit relIds []).1 :=
      not_mem_addFromRelated e.index limit cid relIds []
        (List.not_mem_nil cid) hrel'
    by_cases he : (addFromRelated e.index limit relIds []).2 = true
    · rw [if_pos he]
      exact h1
    · rw [if_neg he]
      exact not_mem_addFromCategory cid comp.category limit e.components _ h1

/-- C4, witness: the amended self-exclusion at `plainRelatedEngine`
(record `"a"` has no `related` field). -/
theorem c4_self_exclusion_witness :
    str "a" ∉ getRelatedComponents plainRelatedEngine (str "a") 5 :=
  c4_self_exclusion plainRelatedEngine (str "a") 5
    { id := str "a", name := str "n", category := str "c",
      description := str "d", tags := [], keywords := [] }
    (by decide) (by decide)

/-- C9: `search` in FUZZY mode and in REGEX mode returns exactly the
result list of EXACT mode — the only mode comparison in the source is
`mode == SearchMode.PARTIAL` guarding the substring pass. -/
theorem c9_mode_equivalence (e : Engine) (q : Str) (k : Int)
    (cf : Option Str) (tf : Option (List Str)) :
    search e q SearchMode.FUZZY k cf tf = search e q SearchMode.EXACT k cf tf ∧
    search e q SearchMode.REGEX k cf tf = search e q SearchMode.EXACT k cf tf := by
  refine ⟨?_, ?_⟩ <;>
    (simp only [search]; rw [scoreQuery_of_ne_PARTIAL _ _ _ (by decide)])

/-- C6, counterexample: `tag_filter = []` is falsy in Python, so the
filter is skipped entirely: `search` against `tagOneEngine` with the
supplied filter `some []` still returns record `"a"`, whose tag set
`{"t1"}` does not intersect `[]` — contradicting the claim for the
supplied-but-empty filter. -/
theorem c6_counterexample :
    (search tagOneEngine (str "xy") SearchMode.EXACT 10 none (some [])).map
      SearchResult.component_id = [str "a"] ∧
    alookup (str "a") tagOneEngine.index =
      some { id := str "a", name := str "xy", category := str "c",
             description := str "d", tags := [str "t1"], keywords := [] } ∧
    (([] : List Str).any (fun t => [str "t1"].contains t)) = false := by
  decide

/-- C6 (amended): every returned `SearchResult` satisfies the supplied
filters whenever they are truthy: a non-empty `category_filter` string
forces category equality and a non-empty `tag_filter` list forces tag
intersection; an empty string or empty list is treated as absent
(Python truthiness) and imposes no constraint. -/
theorem c6_filters_respected (e : Engine) (q : Str) (mode : SearchMode)
    (k : Int) (cf : Option Str) (tf : Option (List Str)) (r : SearchResult)
    (hr : r ∈ search e q mode k cf tf) :
    (∀ c, cf = some c → c ≠ [] → r.category = c) ∧
    (∀ ts, tf = some ts → ts ≠ [] →
      ∃ comp, alookup r.component_id e.index = some comp ∧
        ts.any (fun t => comp.tags.contains t) = true) := by
  obtain ⟨p, comp, hp, hkeep, hcomp, hr_eq⟩ := mem_search_elim e q mode k cf tf r hr
  obtain ⟨comp', hcomp', hcat, htag⟩ := keepScore_spec e.index cf tf p hkeep
  rw [hcomp] at hcomp'
  injection hcomp' with hcc
  subst hcc
  subst hr_eq
  constructor
  · intro c hcf hcne
    subst hcf
    unfold catBlocks at hcat
    have hce : c.isEmpty = false := by
      cases c with
      | nil => exact absurd rfl hcne
      | cons a as => rfl
    simp only [hce, Bool.not_false, Bool.true_and, Bool.not_eq_false',
      beq_iff_eq] at hcat
    simpa using hcat
  · intro ts htf htsne
    subst htf
    unfold tagBlocks at htag
    have hte : ts.isEmpty = false := by
      cases ts with
      | nil => exact absurd rfl htsne
      | cons a as => rfl
    simp only [hte, Bool.not_false, Bool.true_and, Bool.not_eq_false'] at htag
    exact ⟨comp, hcomp, htag⟩

/-- C6, witness: the amended filter law at `tagOneEngine` with the
truthy filters `category_filter = "c"`, `tag_filter = ["t1"]`. -/
theorem c6_filters_respected_witness :
    ({ component_id := str "a", name := str "xy", category := str "c",
       description := str "d", score := 2, matched_fields := [str "name"],
       highlights := [(str "name", str "**xy**")] } : SearchResult).category =
      str "c" :=
  (c6_filters_respected tagOneEngine (str "xy") SearchMode.EXACT 10
    (some (str "c")) (some [str "t1"]) _ (by decide)).1 (str "c") rfl (by decide)

/-- C7, counterexample: against `zzzEngine`, whose record has id and
name `"zzzqqq"`, the EXACT-mode query `"zzzqqq"` returns that record —
so `"zzzqqq"` does NOT return an empty list against EVERY catalog, only
against catalogs whose index lacks the token. -/
theorem c7_counterexample :
    (search zzzEngine (str "zzzqqq") SearchMode.EXACT 10 none none).map
      SearchResult.component_id = [str "zzzqqq"] := by
  decide

/-- C7 (amended): in EXACT mode a query token absent from the inverted
index leaves the scoring state unchanged (zero contribution to every
record), and the query `"zzzqqq"` returns the empty list against every
catalog whose inverted index does not contain the verbatim token
`"zzzqqq"`. -/
theorem c7_exact_no_verbatim :
    (∀ (inv : InvIndex) (t : Str) (st : ScoreState), alookup t inv = none →
      scoreToken inv SearchMode.EXACT st t = st) ∧
    (∀ (e : Engine) (k : Int) (cf : Option Str) (tf : Option (List Str)),
      alookup (str "zzzqqq") e.invIndex = none →
      search e (str "zzzqqq") SearchMode.EXACT k cf tf = []) := by
  have hzero : ∀ (inv : InvIndex) (t : Str) (st : ScoreState),
      alookup t inv = none → scoreToken inv SearchMode.EXACT st t = st := by
    intro inv t st h
    simp [scoreToken, exactPass_of_not_key inv t st h]
  refine ⟨hzero, ?_⟩
  intro e k cf tf h
  simp only [search]
  rw [if_neg (by decide : ¬ (str "zzzqqq").isEmpty = true)]
  rw [show tokenize ((str "zzzqqq").map lowerPy) = [str "zzzqqq"] from by decide]
  have hsq : scoreQuery e.invIndex [str "zzzqqq"] SearchMode.EXACT =
      (⟨[], []⟩ : ScoreState) := by
    have hstep : scoreQuery e.invIndex [str "zzzqqq"] SearchMode.EXACT =
        scoreToken e.invIndex SearchMode.EXACT ⟨[], []⟩ (str "zzzqqq") := rfl
    rw [hstep, hzero _ _ _ h]
  rw [hsq]
  simp [filterScores, sortDescStable, pySliceTo]

/-- C7, witness: the amended law at the empty inverted index and the
engine over the empty catalog. -/
theorem c7_exact_no_verbatim_witness :
    scoreToken ([] : InvIndex) SearchMode.EXACT ⟨[], []⟩ (str "zzzqqq") =
      (⟨[], []⟩ : ScoreState) ∧
    search (buildEngine []) (str "zzzqqq") SearchMode.EXACT 10 none none = [] :=
  ⟨c7_exact_no_verbatim.1 [] (str "zzzqqq") ⟨[], []⟩ rfl,
   c7_exact_no_verbatim.2 (buildEngine []) 10 none none (by decide)⟩

/-- C10: in every returned `SearchResult`, the highlights dict has an
entry for `name` (resp. `description`) if and only if at least one
query token occurs case-insensitively in that field's text; a field
with no token occurrence is absent from the dict rather than mapped to
the unmodified text. -/
theorem c10_highlights_iff (e : Engine) (q : Str) (mode : SearchMode)
    (k : Int) (cf : Option Str) (tf : Option (List Str)) (r : SearchResult)
    (hr : r ∈ search e q mode k cf tf) :
    ((alookup (str "name") r.highlights).isSome = true ↔
      ∃ t ∈ tokenize (q.map lowerPy), occursCI t r.name = true) ∧
    ((alookup (str "description") r.highlights).isSome = true ↔
      ∃ t ∈ tokenize (q.map lowerPy), occursCI t r.description = true) := by
  obtain ⟨p, comp, hp, hkeep, hcomp, hr_eq⟩ := mem_search_elim e q mode k cf tf r hr
  have hne := tokenize_ne_nil (q.map lowerPy)
  subst hr_eq
  dsimp only
  constructor
  · rw [alookup_generateHighlights_name]
    have hiff := highlightField_ne_iff (tokenize (q.map lowerPy)) comp.name hne
    by_cases h : highlightField (tokenize (q.map lowerPy)) comp.name = comp.name
    · simp only [if_pos h, Option.isSome_none, Bool.false_eq_true, false_iff]
      intro hex
      exact hiff.mpr hex h
    · simp only [if_neg h, Option.isSome_some, true_iff]
      exact hiff.mp h
  · rw [alookup_generateHighlights_description]
    have hiff := highlightField_ne_iff (tokenize (q.map lowerPy)) comp.description hne
    by_cases h : highlightField (tokenize (q.map lowerPy)) comp.description =
        comp.description
    · simp only [if_pos h, Option.isSome_none, Bool.false_eq_true, false_iff]
      intro hex
      exact hiff.mpr hex h
    · simp only [if_neg h, Option.isSome_some, true_iff]
      exact hiff.mp h

/-- C10, witness: the highlight entry for `name` is present in the
result `tagOneEngine` returns for the query `"xy"`, whose token occurs
in the record's name. -/
theorem c10_highlights_iff_witness :
    (alookup (str "name")
      ({ component_id := str "a", name := str "xy", category := str "c",
         description := str "d", score := 2, matched_fields := [str "name"],
         highlights := [(str "name", str "**xy**")] } : SearchResult).highlights).isSome
      = true :=
  (c10_highlights_iff tagOneEngine (str "xy") SearchMode.EXACT 10 none none
    _ (by decide)).1.mpr ⟨str "xy", by decide, by decide⟩

/-- C5, counterexample: against `subTokenEngine` with `limit = 1`, EXACT
mode returns `["a0"]` while PARTIAL mode returns `["xyz"]` (the
substring-only record outscores the exact match and the truncation
drops `"a0"`): the PARTIAL result set is NOT a superset of the EXACT
one at the same limit. -/
theorem c5_counterexample :
    (search subTokenEngine (str "xy") SearchMode.EXACT 1 none none).map
      SearchResult.component_id = [str "a0"] ∧
    (search subTokenEngine (str "xy") SearchMode.PARTIAL 1 none none).map
      SearchResult.component_id = [str "xyz"] ∧
    str "a0" ∉ (search subTokenEngine (str "xy") SearchMode.PARTIAL 1 none none).map
      SearchResult.component_id := by
  decide

/-- C5 (amended): whenever the limit does not truncate the PARTIAL-mode
ranking (`k` at least the number of ranked survivors), every component
id returned by EXACT-mode search is also returned by PARTIAL-mode
search with the same catalog, query, limit and filters; with a
truncating limit a substring-only record can displace an exact match. -/
theorem c5_partial_superset (e : Engine) (q : Str) (cf : Option Str)
    (tf : Option (List Str)) (k : Int)
    (hk : ((rankedIds e q SearchMode.PARTIAL cf tf).length : Int) ≤ k)
    (cid : Str)
    (hcid : cid ∈ (search e q SearchMode.EXACT k cf tf).map
      SearchResult.component_id) :
    cid ∈ (search e q SearchMode.PARTIAL k cf tf).map
      SearchResult.component_id := by
  obtain ⟨r, hr, hrcid⟩ := List.mem_map.mp hcid
  obtain ⟨p, comp, hp, hkeep, hcomp, hr_eq⟩ :=
    mem_search_elim e q SearchMode.EXACT k cf tf r hr
  have hpid : r.component_id = p.1 := by rw [hr_eq]
  have hcid_p : cid = p.1 := by rw [← hrcid, hpid]
  have hpf : p ∈ filterScores e.index cf tf
      (scoreQuery e.invIndex (tokenize (q.map lowerPy)) SearchMode.EXACT).scores :=
    (mem_sortDescStable _ _).mp (mem_of_mem_pySliceTo _ _ _ hp)
  have hpscores : p ∈ (scoreQuery e.invIndex (tokenize (q.map lowerPy))
      SearchMode.EXACT).scores :=
    ((mem_filterScores _ _ _ _ _).mp hpf).1
  have hkey : p.1 ∈ (scoreQuery e.invIndex (tokenize (q.map lowerPy))
      SearchMode.EXACT).scores.map Prod.fst :=
    List.mem_map.mpr ⟨p, hpscores, rfl⟩
  have hkey2 : p.1 ∈ (scoreQuery e.invIndex (tokenize (q.map lowerPy))
      SearchMode.PARTIAL).scores.map Prod.fst :=
    mem_fst_scoreQuery_mono e.invIndex (tokenize (q.map lowerPy)) p.1 hkey
  obtain ⟨p', hp', hp'eq⟩ := List.mem_map.mp hkey2
  have hkeep' : keepScore e.index cf tf p' = true := by
    unfold keepScore at hkeep ⊢
    rw [hp'eq]
    exact hkeep
  have hpf' : p' ∈ filterScores e.index cf tf
      (scoreQuery e.invIndex (tokenize (q.map lowerPy)) SearchMode.PARTIAL).scores :=
    (mem_filterScores _ _ _ _ _).mpr ⟨hp', hkeep'⟩
  have hsorted : p' ∈ sortDescStable (filterScores e.index cf tf
      (scoreQuery e.invIndex (tokenize (q.map lowerPy)) SearchMode.PARTIAL).scores) :=
    (mem_sortDescStable _ _).mpr hpf'
  have hslice : pySliceTo k (sortDescStable (filterScores e.index cf tf
      (scoreQuery e.invIndex (tokenize (q.map lowerPy)) SearchMode.PARTIAL).scores)) =
      sortDescStable (filterScores e.index cf tf
        (scoreQuery e.invIndex (tokenize (q.map lowerPy)) SearchMode.PARTIAL).scores) :=
    pySliceTo_of_length_le k _ hk
  have hq : ¬ q.isEmpty = true := by
    intro hq
    have hnil : search e q SearchMode.EXACT k cf tf = [] := by
      unfold search
      rw [if_pos hq]
    rw [hnil] at hr
    cases hr
  have hcomp' : alookup p'.1 e.index = some comp := by
    rw [hp'eq]
    exact hcomp
  simp only [search]
  rw [if_neg hq]
  apply List.mem_map.mpr
  refine ⟨_, List.mem_filterMap.mpr ⟨p', ?_, buildResult_of_alookup e.index
    (tokenize (q.map lowerPy))
    (scoreQuery e.invIndex (tokenize (q.map lowerPy)) SearchMode.PARTIAL).matched
    p' comp hcomp'⟩, ?_⟩
  · rw [hslice]
    exact hsorted
  · dsimp only
    rw [hp'eq]
    exact hcid_p.symm

/-- C5, witness: the amended superset law at `subTokenEngine` with
`k = 2`, which does not truncate the PARTIAL ranking (two survivors):
the EXACT result `"a0"` is also among the PARTIAL results. -/
theorem c5_partial_superset_witness :
    str "a0" ∈ (search subTokenEngine (str "xy") SearchMode.PARTIAL 2 none none).map
      SearchResult.component_id :=
  c5_partial_superset subTokenEngine (str "xy") none none 2 (by decide)
    (str "a0") (by decide)

set_option maxRecDepth 100000 in
set_option maxHeartbeats 2000000 in
/-- C8: against the built-in default catalog, the PARTIAL-mode query
`"入力"` with `limit = 10` returns both `text_input` and
`number_input` (the full result list is exactly
`[text_input, number_input, text_area]`, all scored 7). -/
theorem c8_default_catalog :
    str "text_input" ∈ (search defaultEngine (str "入力") SearchMode.PARTIAL
      10 none none).map SearchResult.component_id ∧
    str "number_input" ∈ (search defaultEngine (str "入力") SearchMode.PARTIAL
      10 none none).map SearchResult.component_id := by
  have h : (search defaultEngine (str "入力") SearchMode.PARTIAL 10 none none).map
      SearchResult.component_id = [str "text_input", str "number_input", str "text_area"] := by
    decide
  rw [h]
  exact ⟨by decide, by decide⟩
